import Mathlib

/-!
Shallow embedding of the systemd environment generator `man/90-rearrange-path.py`.

The script has three parts, all modelled here:
* `update_env_from_file` / `handle_line`: evaluate `KEY=VALUE` assignment lines
  with `#`-comments, backslash line continuation, and `$NAME` / `${NAME}`
  variable substitution guarded by a backslash escape (the `(?<!\\)` lookbehind);
* `current_env`: scan directories for `*.conf` files, later directories shadow
  same-named files of earlier ones, evaluate the chosen files in sorted order
  of basename;
* `rearrange_bin_sbin` / `rearrange_path`: split `PATH` on `:`, parse every
  segment with `pathlib` component semantics, move each `…/bin` segment in
  front of its matching `…/sbin` segment by a single forward swap pass, and
  write an override file when the serialized result changed.

Python strings are modelled as Lean `String` (lists of characters); files are
lists of physical lines (without the trailing newline); the filesystem seen by
`current_env` is a list of directories, each a list of named files.
-/

namespace RearrangePath

/-! ## Python string primitives -/

/-- The characters stripped by Python `str.rstrip()` (ASCII whitespace). -/
def isPySpace (c : Char) : Bool :=
  c = ' ' || c = '\t' || c = '\n' || c = '\r' || c = '\x0b' || c = '\x0c'

/-- Python `line.rstrip()`: drop trailing whitespace. -/
def rstrip (s : String) : String :=
  String.mk ((s.data.reverse.dropWhile isPySpace).reverse)

/-- Python `s.split(sep)` for a one-character separator: always at least one
(possibly empty) field. -/
def splitChar (sep : Char) : List Char → List (List Char)
  | [] => [[]]
  | c :: cs =>
    match splitChar sep cs with
    | r :: rs => if c = sep then [] :: r :: rs else (c :: r) :: rs
    | [] => [[c]]

/-- Python `sep.join(strings)`. -/
def joinWith (sep : String) : List String → String
  | [] => ""
  | [x] => x
  | x :: y :: xs => x ++ sep ++ joinWith sep (y :: xs)

/-- Bool test that `p` is a prefix of `l`. -/
def listPrefix : List Char → List Char → Bool
  | [], _ => true
  | _ :: _, [] => false
  | a :: as, b :: bs => a = b && listPrefix as bs

/-- Python `s.startswith(p)`. -/
def strStartsWith (s p : String) : Bool := listPrefix p.data s.data

/-- Python `s.endswith(p)`. -/
def strEndsWith (s p : String) : Bool := listPrefix p.data.reverse s.data.reverse

/-- Python `line.startswith('#')`. -/
def startsHash (s : String) : Bool :=
  match s.data with
  | '#' :: _ => true
  | _ => false

/-- Python `line.endswith('\\')`. -/
def endsBackslash (s : String) : Bool := s.data.getLast? = some '\\'

/-- Python `line[:-1]`. -/
def dropLastStr (s : String) : String := String.mk s.data.dropLast

/-- Worker for `partitionEq`: scan for the first `=`. -/
def partitionEqAux (acc : List Char) : List Char → Option (String × String)
  | [] => none
  | '=' :: rest => some (String.mk acc.reverse, String.mk rest)
  | c :: rest => partitionEqAux (c :: acc) rest

/-- Python `line.partition('=')`, collapsed to `none` when no `=` occurs
(the script only tests `op`). -/
def partitionEq (s : String) : Option (String × String) :=
  partitionEqAux [] s.data

/-! ## The environment -/

/-- The accumulating environment: Python dict from names to values. -/
def Env : Type := String → Option String

/-- The empty environment `{}`. -/
def envEmpty : Env := fun _ => none

/-- Python `env[k] = v`. -/
def envSet (env : Env) (k v : String) : Env :=
  fun n => if n = k then some v else env n

/-- Python `env.get(k, '')`. -/
def envGetD (env : Env) (k : String) : String := (env k).getD ""

/-! ## Variable substitution

Python: `re.sub(r'(?<!\\)\$(\w+|\{([^}]*)\})', replace_var, val)` where
`replace_var` returns `env.get(match.group(2) or match.group(1), '')`.
Modelled as a left-to-right scan over the character list; `pb` records whether
the character just before the current position was a backslash (the
lookbehind).  `fuel` is structural and only has to dominate the remaining
length; `substChars` instantiates it with the length of the input. -/

/-- A character matched by `\w` (ASCII range; the script is only ever run on
ASCII variable names). -/
def isWordChar (c : Char) : Bool := c.isAlphanum || c = '_'

/-- One pass of `re.sub` for the substitution regex, structurally recursive on
`fuel`.  When `fuel` runs out the rest is returned unchanged; every caller
supplies enough fuel for that not to happen. -/
def substFuel (env : Env) : Nat → Bool → List Char → List Char
  | 0, _, cs => cs
  | _ + 1, _, [] => []
  | fuel + 1, pb, c :: rest =>
    if c = '$' && !pb then
      match rest with
      | [] => ['$']
      | c2 :: rest2 =>
        if c2 = '\x7b' then
          match rest2.dropWhile (fun d => !(d = '\x7d')) with
          | '\x7d' :: after =>
            let inner := rest2.takeWhile (fun d => !(d = '\x7d'))
            let key := if inner.isEmpty then "\x7b\x7d" else String.mk inner
            (envGetD env key).data ++ substFuel env fuel false after
          | _ => '$' :: substFuel env fuel false rest
        else if isWordChar c2 then
          (envGetD env (String.mk (c2 :: rest2.takeWhile isWordChar))).data
            ++ substFuel env fuel false (rest2.dropWhile isWordChar)
        else '$' :: substFuel env fuel false rest
    else c :: substFuel env fuel (c = '\\') rest

/-- `re.sub` of the substitution regex over a whole value string. -/
def substValue (env : Env) (s : String) : String :=
  String.mk (substFuel env s.data.length false s.data)

/-- `handle_line`: partition on the first `=`; ignore lines without one;
substitute variables in the value and assign. -/
def handle_line (env : Env) (line : String) : Env :=
  match partitionEq line with
  | none => env
  | some (var, val) => envSet env var (substValue env val)

/-! ## Reading one file -/

/-- The physical-line loop of `update_env_from_file`: skip `#` lines, join
backslash continuations into `full`, evaluate each finished logical line, and
flush the accumulator once more at end of file. -/
def fileLoop (env : Env) (full : String) : List String → Env
  | [] => handle_line env (rstrip full)
  | l :: ls =>
    if startsHash l then fileLoop env full ls
    else if endsBackslash (rstrip l) then
      fileLoop env (full ++ dropLastStr (rstrip l)) ls
    else fileLoop (handle_line env (rstrip (full ++ rstrip l))) "" ls

/-- `update_env_from_file env file`: the file is its list of physical lines. -/
def update_env_from_file (env : Env) (lines : List String) : Env :=
  fileLoop env "" lines

/-- The logical lines fed to `handle_line` by `fileLoop`, in order (the final
flush contributes its — possibly empty — accumulator as well, exactly as the
script calls `handle_line(fullline.rstrip())` after the loop). -/
def logicalLines (full : String) : List String → List String
  | [] => [rstrip full]
  | l :: ls =>
    if startsHash l then logicalLines full ls
    else if endsBackslash (rstrip l) then
      logicalLines (full ++ dropLastStr (rstrip l)) ls
    else rstrip (full ++ rstrip l) :: logicalLines "" ls

/-- Logical lines of a whole file. -/
def logicalLinesOf (lines : List String) : List String := logicalLines "" lines

/-! ## Directory scan and merge -/

/-- A config file as seen by the script: a basename and its physical lines. -/
structure ConfFile where
  name : String
  lines : List String
deriving DecidableEq

/-- `glob.glob(dir + '/*.conf')`: the files of one directory whose name ends
in `.conf`; glob's `*` does not match a leading dot. -/
def globConf (d : List ConfFile) : List ConfFile :=
  d.filter (fun f => strEndsWith f.name ".conf" && !(strStartsWith f.name "."))

/-- Python dict assignment `d[k] = v`: overwrite an existing key in place,
otherwise append. -/
def insertDict (d : List (String × ConfFile)) (k : String) (v : ConfFile) :
    List (String × ConfFile) :=
  if d.any (fun kv => kv.1 = k) then
    d.map (fun kv => if kv.1 = k then (k, v) else kv)
  else d ++ [(k, v)]

/-- The dict comprehension `dict((Path(p).name, p) for dir in dirs for p in …)`,
after globbing: keyed by basename, last write wins. -/
def buildDict (files : List ConfFile) : List (String × ConfFile) :=
  files.foldl (fun d f => insertDict d f.name f) []

/-- Dict lookup. -/
def dictLookup (d : List (String × ConfFile)) (k : String) : Option ConfFile :=
  (d.find? (fun kv => decide (kv.1 = k))).map (·.2)

/-- Lexicographic comparison of character lists by code point (Python string
`<`). -/
def listLtChars : List Char → List Char → Bool
  | [], [] => false
  | [], _ :: _ => true
  | _ :: _, [] => false
  | a :: as, b :: bs => if a = b then listLtChars as bs else decide (a.toNat < b.toNat)

/-- Python string `<`. -/
def strLt (s t : String) : Bool := listLtChars s.data t.data

/-- Insert one pair into a list sorted ascending by key (`sorted(files.items())`;
basenames are the dict's keys, hence distinct). -/
def insertPair (x : String × ConfFile) :
    List (String × ConfFile) → List (String × ConfFile)
  | [] => [x]
  | y :: ys => if strLt y.1 x.1 then y :: insertPair x ys else x :: y :: ys

/-- `sorted(files.items())` by insertion sort. -/
def sortDict (d : List (String × ConfFile)) : List (String × ConfFile) :=
  d.foldr insertPair []

/-- `current_env(dirs)`: glob every directory, merge by basename with later
directories shadowing earlier ones, then evaluate the chosen files in sorted
basename order starting from the empty environment. -/
def current_env (dirs : List (List ConfFile)) : Env :=
  (sortDict (buildDict ((dirs.map globConf).flatten))).foldl
    (fun env kv => update_env_from_file env kv.2.lines) envEmpty

/-- Modelled from the spec: "the path from the highest-priority (last-matching)
directory wins" — the last file with a given basename in the concatenated
directory listing.  Compared below with the dict built by the code. -/
def findLast (p : ConfFile → Bool) : List ConfFile → Option ConfFile
  | [] => none
  | f :: fs =>
    match findLast p fs with
    | some x => some x
    | none => if p f then some f else none

/-! ## Path parsing (`pathlib.PurePosixPath`)

A path is represented by its `parts` tuple: an optional root `"/"` or `"//"`
followed by the non-empty, non-`"."` components.  `pathlib` equality is
equality of `parts`, and `as_posix()` re-serializes from `parts`. -/

/-- `pathlib.Path(s).parts`: split on `/`, drop empty and `.` components, and
prepend the root (`//` exactly when the string starts with two — not three —
slashes). -/
def parsePath (s : String) : List String :=
  let comps := ((splitChar '/' s.data).map String.mk).filter
    (fun c => !(c = "") && !(c = "."))
  match s.data with
  | '/' :: '/' :: '/' :: _ => "/" :: comps
  | '/' :: '/' :: _ => "//" :: comps
  | '/' :: _ => "/" :: comps
  | _ => comps

/-- `p.as_posix()` from the `parts` representation. -/
def asPosix : List String → String
  | [] => "."
  | r :: rest =>
    if r = "/" then "/" ++ joinWith "/" rest
    else if r = "//" then "//" ++ joinWith "/" rest
    else joinWith "/" (r :: rest)

/-- Index of the first occurrence of `x` (`list.index` guarded by `in`). -/
def firstIdx {α : Type} [DecidableEq α] (x : α) : List α → Option Nat
  | [] => none
  | a :: as => if a = x then some 0 else (firstIdx x as).map (· + 1)

/-- The hypothetical sibling: `Path(*parts[:ind], 'bin', *parts[ind+1:])` with
`ind = parts.index('sbin')`. -/
def siblingBin (parts : List String) : List String :=
  match firstIdx "sbin" parts with
  | some ind => parts.take ind ++ "bin" :: parts.drop (ind + 1)
  | none => parts

/-- One iteration of the `for i in range(len(items))` loop of
`rearrange_bin_sbin`: when segment `i` has an `sbin` component and its sibling
occurs among the later segments, swap the two. -/
def step (items : List (List String)) (i : Nat) : List (List String) :=
  match items[i]? with
  | none => items
  | some it =>
    if "sbin" ∈ it then
      match firstIdx (siblingBin it) (items.drop (i + 1)) with
      | some r => (items.set i (siblingBin it)).set (i + 1 + r) it
      | none => items
    else items

/-- The whole swap pass. -/
def rearrangeItems (items : List (List String)) : List (List String) :=
  (List.range items.length).foldl step items

/-- `rearrange_bin_sbin(path)`. -/
def rearrange_bin_sbin (path : String) : String :=
  joinWith ":"
    ((rearrangeItems
        ((splitChar ':' path.data).map (fun cs => parsePath (String.mk cs)))).map
      asPosix)

/-! ## Orchestrator -/

/-- The single write `rearrange_path` may perform: which directory (index into
the argument list), the filename, and the full file content. -/
structure WriteAction where
  dirIndex : Nat
  fileName : String
  content : String
deriving DecidableEq

/-- `rearrange_path(dirs)`: the write it performs, if any. -/
def rearrange_path (dirs : List (List ConfFile)) : Option WriteAction :=
  let env := current_env dirs
  match env "PATH" with
  | none => none
  | some path =>
    if path = "" then none
    else
      let new := rearrange_bin_sbin path
      if new = path then none
      else some ⟨dirs.length - 1, "90-rearrange-path.conf", "PATH=" ++ new ++ "\n"⟩

/-! ## Characterization of the first-occurrence search -/

theorem firstIdx_some_iff {α : Type} [DecidableEq α] (x : α) (l : List α) :
    ∀ r : Nat, firstIdx x l = some r ↔
      l[r]? = some x ∧ ∀ k, k < r → l[k]? ≠ some x := by
  induction l with
  | nil => intro r; simp [firstIdx]
  | cons a as ih =>
    intro r
    by_cases h : a = x
    · subst h
      simp only [firstIdx, if_pos rfl]
      constructor
      · intro hr
        injection hr with hr
        subst hr
        exact ⟨List.getElem?_cons_zero, fun k hk => absurd hk (Nat.not_lt_zero k)⟩
      · rintro ⟨h1, h2⟩
        cases r with
        | zero => rfl
        | succ n => exact absurd List.getElem?_cons_zero (h2 0 (Nat.succ_pos n))
    · simp only [firstIdx, if_neg h]
      cases r with
      | zero =>
        constructor
        · intro hr
          obtain ⟨m, -, hm⟩ := Option.map_eq_some'.1 hr
          omega
        · rintro ⟨h1, -⟩
          rw [List.getElem?_cons_zero] at h1
          injection h1 with h1
          exact absurd h1 h
      | succ n =>
        have hmap : (firstIdx x as).map (· + 1) = some (n + 1) ↔
            firstIdx x as = some n := by
          constructor
          · intro hr
            obtain ⟨m, hm, hmn⟩ := Option.map_eq_some'.1 hr
            have : m = n := by omega
            subst this
            exact hm
          · intro hr; rw [hr]; rfl
        rw [hmap, ih n]
        constructor
        · rintro ⟨h1, h2⟩
          refine ⟨by simpa using h1, ?_⟩
          intro k hk
          cases k with
          | zero =>
            rw [List.getElem?_cons_zero]
            intro hc
            injection hc with hc
            exact h hc
          | succ k' => simpa using h2 k' (by omega)
        · rintro ⟨h1, h2⟩
          exact ⟨by simpa using h1, fun k hk => by simpa using h2 (k + 1) (by omega)⟩

theorem firstIdx_none_iff {α : Type} [DecidableEq α] (x : α) (l : List α) :
    firstIdx x l = none ↔ x ∉ l := by
  induction l with
  | nil => simp [firstIdx]
  | cons a as ih =>
    by_cases h : a = x
    · subst h; simp [firstIdx]
    · simp only [firstIdx, if_neg h, Option.map_eq_none', ih, List.mem_cons]
      constructor
      · intro h1 h2
        rcases h2 with h2 | h2
        · exact h (h2.symm)
        · exact h1 h2
      · intro h1 h2
        exact h1 (Or.inr h2)

/-! ## The swap step of `rearrange_bin_sbin` -/

theorem siblingBin_spec (it : List String) (h : "sbin" ∈ it) :
    ∃ ind, it[ind]? = some "sbin" ∧ (∀ k, k < ind → it[k]? ≠ some "sbin") ∧
      siblingBin it = it.take ind ++ "bin" :: it.drop (ind + 1) := by
  have h1 : firstIdx "sbin" it ≠ none := fun c => (firstIdx_none_iff _ _).1 c h
  obtain ⟨ind, hind⟩ := Option.ne_none_iff_exists'.1 h1
  obtain ⟨h2, h3⟩ := (firstIdx_some_iff _ _ ind).1 hind
  refine ⟨ind, h2, h3, ?_⟩
  unfold siblingBin
  rw [hind]

theorem step_swap (items : List (List String)) (i j : Nat) (it : List String)
    (hi : items[i]? = some it) (hs : "sbin" ∈ it) (hij : i < j)
    (hj : items[j]? = some (siblingBin it))
    (hfirst : ∀ k, i < k → k < j → items[k]? ≠ some (siblingBin it)) :
    step items i = (items.set i (siblingBin it)).set j it := by
  have hr : firstIdx (siblingBin it) (items.drop (i + 1)) = some (j - (i + 1)) := by
    rw [firstIdx_some_iff]
    refine ⟨?_, ?_⟩
    · rw [List.getElem?_drop]
      have he : i + 1 + (j - (i + 1)) = j := by omega
      rw [he]; exact hj
    · intro k hk
      rw [List.getElem?_drop]
      exact hfirst (i + 1 + k) (by omega) (by omega)
  unfold step
  rw [hi]
  simp only [if_pos hs, hr]
  have he : i + 1 + (j - (i + 1)) = j := by omega
  rw [he]

theorem step_noswap (items : List (List String)) (i : Nat) (it : List String)
    (hi : items[i]? = some it) (hs : "sbin" ∈ it)
    (hnone : ∀ k, i < k → items[k]? ≠ some (siblingBin it)) :
    step items i = items := by
  have hr : firstIdx (siblingBin it) (items.drop (i + 1)) = none := by
    rw [firstIdx_none_iff]
    intro hmem
    obtain ⟨k, hk⟩ := List.mem_iff_getElem?.1 hmem
    rw [List.getElem?_drop] at hk
    exact hnone (i + 1 + k) (by omega) hk
  unfold step
  rw [hi]
  simp only [if_pos hs, hr]

/-- C1: for a path split into segments, at every index `i` whose segment has an
`sbin` component, the hypothetical sibling replaces the first `sbin` component
by `bin` leaving all other components unchanged; only indices `i+1 .. end` of
the current sequence are searched for the first segment equal to that sibling;
on a hit at `j` the segments at `i` and `j` are swapped in place, otherwise
nothing changes; and the two examples from the spec evaluate as stated. -/
theorem C1_rearrange_swap_behavior :
    (∀ it : List String, "sbin" ∈ it →
        ∃ ind, it[ind]? = some "sbin" ∧ (∀ k, k < ind → it[k]? ≠ some "sbin") ∧
          siblingBin it = it.take ind ++ "bin" :: it.drop (ind + 1))
    ∧ (∀ (items : List (List String)) (i j : Nat) (it : List String),
        items[i]? = some it → "sbin" ∈ it → i < j →
        items[j]? = some (siblingBin it) →
        (∀ k, i < k → k < j → items[k]? ≠ some (siblingBin it)) →
        step items i = (items.set i (siblingBin it)).set j it)
    ∧ (∀ (items : List (List String)) (i : Nat) (it : List String),
        items[i]? = some it → "sbin" ∈ it →
        (∀ k, i < k → items[k]? ≠ some (siblingBin it)) →
        step items i = items)
    ∧ rearrange_bin_sbin "/usr/sbin:/usr/bin:/foo/bar" = "/usr/bin:/usr/sbin:/foo/bar"
    ∧ rearrange_bin_sbin "/usr/bin:/usr/sbin" = "/usr/bin:/usr/sbin" :=
  ⟨siblingBin_spec, step_swap, step_noswap, by decide, by decide⟩

/-- Witness for C1: the swap case applied to the concrete sequence
`[/usr/sbin, /usr/bin]` at index 0 produces the swapped sequence. -/
theorem C1_witness :
    step [["/", "usr", "sbin"], ["/", "usr", "bin"]] 0
      = [["/", "usr", "bin"], ["/", "usr", "sbin"]] := by
  have h := C1_rearrange_swap_behavior.2.1 [["/", "usr", "sbin"], ["/", "usr", "bin"]]
    0 1 ["/", "usr", "sbin"] (by decide) (by decide) (by decide) (by decide)
    (fun k h1 h2 => absurd h1 (by omega))
  rw [h]
  decide

/-- C2: `rearrange_bin_sbin` is NOT idempotent.  On
`/sbin/sbin:/bin/sbin:/bin/bin` one pass swaps `/sbin/sbin` with its sibling
`/bin/sbin`, placing a segment that still contains an `sbin` component at an
index the forward-only scan has already passed; a second application therefore
changes the string again. -/
theorem C2_not_idempotent :
    rearrange_bin_sbin "/sbin/sbin:/bin/sbin:/bin/bin"
      = "/bin/sbin:/sbin/sbin:/bin/bin"
    ∧ rearrange_bin_sbin (rearrange_bin_sbin "/sbin/sbin:/bin/sbin:/bin/bin")
      = "/bin/bin:/bin/sbin:/sbin/sbin"
    ∧ rearrange_bin_sbin (rearrange_bin_sbin "/sbin/sbin:/bin/sbin:/bin/bin")
      ≠ rearrange_bin_sbin "/sbin/sbin:/bin/sbin:/bin/bin" :=
  ⟨by decide, by decide, by decide⟩

/-- C10: `rearrange_bin_sbin` re-serializes every segment through the
`pathlib`-style parser, which collapses duplicate slashes, removes `.`
components, strips trailing slashes and renders an empty segment as `.`; hence
inputs without any `sbin` component still come back changed, and the
orchestrator then writes the override file. -/
theorem C10_normalization_rewrites :
    rearrange_bin_sbin "/usr//bin" = "/usr/bin"
    ∧ rearrange_bin_sbin "/usr/bin/" = "/usr/bin"
    ∧ rearrange_bin_sbin "/a/./b" = "/a/b"
    ∧ rearrange_bin_sbin "a:" = "a:."
    ∧ (parsePath "/usr//bin").contains "sbin" = false
    ∧ (parsePath "/usr/bin/").contains "sbin" = false
    ∧ rearrange_bin_sbin "/usr//bin" ≠ "/usr//bin"
    ∧ rearrange_bin_sbin "/usr/bin/" ≠ "/usr/bin/"
    ∧ rearrange_path [[⟨"a.conf", ["PATH=/usr//bin"]⟩]]
      = some ⟨0, "90-rearrange-path.conf", "PATH=/usr/bin\n"⟩ :=
  ⟨by decide, by decide, by decide, by decide, by decide, by decide, by decide,
    by decide, by decide⟩

/-! ## Substitution lemmas -/

theorem mk_data (s : String) : String.mk s.data = s := rfl

theorem data_ne_nil {s : String} (h : s ≠ "") : s.data ≠ [] := by
  intro hd
  apply h
  cases s with
  | mk d => cases hd; rfl

theorem isWordChar_ne_dollar {c : Char} (h : isWordChar c = true) : c ≠ '$' := by
  intro hc
  subst hc
  exact absurd h (by decide)

theorem isWordChar_ne_backslash {c : Char} (h : isWordChar c = true) : c ≠ '\\' := by
  intro hc
  subst hc
  exact absurd h (by decide)

theorem isWordChar_ne_brace {c : Char} (h : isWordChar c = true) : c ≠ '\x7b' := by
  intro hc
  subst hc
  exact absurd h (by decide)

theorem substFuel_nil (env : Env) (f : Nat) (pb : Bool) : substFuel env f pb [] = [] := by
  cases f <;> rfl

theorem substFuel_no_dollar (env : Env) :
    ∀ (f : Nat) (pb : Bool) (cs : List Char), '$' ∉ cs → substFuel env f pb cs = cs := by
  intro f
  induction f with
  | zero => intro pb cs _; rfl
  | succ n ih =>
    intro pb cs h
    cases cs with
    | nil => rfl
    | cons c rest =>
      have hc : c ≠ '$' := fun hc => h (hc ▸ List.mem_cons_self c rest)
      have h1 : '$' ∉ rest := fun hm => h (List.mem_cons_of_mem c hm)
      simp only [substFuel, decide_eq_false hc, Bool.false_and, Bool.false_eq_true,
        if_false]
      exact congrArg (c :: ·) (ih _ rest h1)

theorem substFuel_literal (env : Env) (f : Nat) (pb : Bool) (c : Char)
    (rest : List Char) (hc : c ≠ '$') :
    substFuel env (f + 1) pb (c :: rest)
      = c :: substFuel env f (decide (c = '\\')) rest := by
  simp only [substFuel, decide_eq_false hc, Bool.false_and, Bool.false_eq_true,
    if_false]

theorem substFuel_escaped_dollar (env : Env) (f : Nat) (rest : List Char) :
    substFuel env (f + 1) true ('$' :: rest) = '$' :: substFuel env f false rest := by
  simp only [substFuel, decide_True, Bool.not_true, Bool.and_false,
    Bool.false_eq_true, if_false,
    decide_eq_false (by decide : ('$' : Char) ≠ '\\')]

theorem substFuel_word_token (env : Env) (f : Nat) (c2 : Char) (rest2 : List Char)
    (hw : isWordChar c2 = true) :
    substFuel env (f + 1) false ('$' :: c2 :: rest2)
      = (envGetD env (String.mk (c2 :: rest2.takeWhile isWordChar))).data
        ++ substFuel env f false (rest2.dropWhile isWordChar) := by
  have hne : c2 ≠ '\x7b' := isWordChar_ne_brace hw
  simp only [substFuel]
  simp [hne, hw]

theorem dropWhile_until_brace (after : List Char) :
    ∀ inner : List Char, '\x7d' ∉ inner →
      (inner ++ '\x7d' :: after).dropWhile (fun d => !(d = '\x7d')) = '\x7d' :: after := by
  intro inner
  induction inner with
  | nil => intro _; simp [List.dropWhile]
  | cons c cs ih =>
    intro h
    have hc : c ≠ '\x7d' := fun hc => h (hc ▸ List.mem_cons_self c cs)
    have h1 : '\x7d' ∉ cs := fun hm => h (List.mem_cons_of_mem c hm)
    simp only [List.cons_append, List.dropWhile, decide_eq_false hc, Bool.not_false,
      if_true]
    exact ih h1

theorem takeWhile_until_brace (after : List Char) :
    ∀ inner : List Char, '\x7d' ∉ inner →
      (inner ++ '\x7d' :: after).takeWhile (fun d => !(d = '\x7d')) = inner := by
  intro inner
  induction inner with
  | nil => intro _; simp [List.takeWhile]
  | cons c cs ih =>
    intro h
    have hc : c ≠ '\x7d' := fun hc => h (hc ▸ List.mem_cons_self c cs)
    have h1 : '\x7d' ∉ cs := fun hm => h (List.mem_cons_of_mem c hm)
    simp only [List.cons_append, List.takeWhile, decide_eq_false hc, Bool.not_false,
      if_true]
    exact congrArg (c :: ·) (ih h1)

theorem substFuel_brace_token (env : Env) (f : Nat) (inner after : List Char)
    (hin : '\x7d' ∉ inner) :
    substFuel env (f + 1) false ('$' :: '\x7b' :: (inner ++ '\x7d' :: after))
      = (envGetD env (if inner.isEmpty then "\x7b\x7d" else String.mk inner)).data
        ++ substFuel env f false after := by
  simp only [substFuel]
  simp [dropWhile_until_brace after inner hin, takeWhile_until_brace after inner hin]

theorem substValue_word (env : Env) (name : String)
    (h1 : name ≠ "") (h2 : ∀ c ∈ name.data, isWordChar c = true) :
    substValue env ("$" ++ name) = envGetD env name := by
  obtain ⟨c2, rest2, hdata⟩ : ∃ c cs, name.data = c :: cs := by
    cases hd : name.data with
    | nil => exact absurd hd (data_ne_nil h1)
    | cons c cs => exact ⟨c, cs, rfl⟩
  have hd : ("$" ++ name).data = '$' :: c2 :: rest2 := by
    rw [String.data_append, hdata]; rfl
  have hw : isWordChar c2 = true := h2 c2 (hdata ▸ List.mem_cons_self c2 rest2)
  have htake : rest2.takeWhile isWordChar = rest2 :=
    List.takeWhile_eq_self_iff.2 fun c hc =>
      h2 c (hdata ▸ List.mem_cons_of_mem c2 hc)
  have hdrop : rest2.dropWhile isWordChar = [] :=
    List.dropWhile_eq_nil_iff.2 fun c hc =>
      h2 c (hdata ▸ List.mem_cons_of_mem c2 hc)
  unfold substValue
  rw [hd]
  simp only [List.length_cons]
  rw [substFuel_word_token env (rest2.length + 1) c2 rest2 hw, htake, hdrop,
    substFuel_nil, List.append_nil, ← hdata, mk_data, mk_data]

theorem substValue_brace (env : Env) (name : String)
    (h1 : name ≠ "") (h2 : '\x7d' ∉ name.data) :
    substValue env ("$\x7b" ++ name ++ "\x7d") = envGetD env name := by
  have hd : ("$\x7b" ++ name ++ "\x7d").data
      = '$' :: '\x7b' :: (name.data ++ '\x7d' :: []) := by
    rw [String.data_append, String.data_append]
    rfl
  have hlen : ('$' :: '\x7b' :: (name.data ++ '\x7d' :: [])).length
      = (name.data.length + 2) + 1 := by
    simp only [List.length_cons, List.length_append, List.length_nil]
  have hne : name.data.isEmpty = false := by
    cases hd2 : name.data with
    | nil => exact absurd hd2 (data_ne_nil h1)
    | cons c cs => rfl
  unfold substValue
  rw [hd, hlen, substFuel_brace_token env (name.data.length + 2) name.data [] h2,
    substFuel_nil, List.append_nil]
  simp only [hne, Bool.false_eq_true, if_false, mk_data]

theorem substValue_escaped (env : Env) (name : String)
    (h2 : ∀ c ∈ name.data, isWordChar c = true) :
    substValue env ("\\$" ++ name) = "\\$" ++ name := by
  have hd : ("\\$" ++ name).data = '\\' :: '$' :: name.data := by
    rw [String.data_append]; rfl
  have hnd : '$' ∉ name.data := fun hm => isWordChar_ne_dollar (h2 _ hm) rfl
  have hlen : ("\\$" ++ name).data.length = (name.data.length + 1) + 1 := by
    rw [hd]
    simp only [List.length_cons]
  unfold substValue
  rw [hlen, hd,
    substFuel_literal env (name.data.length + 1) false '\\' _ (by decide),
    show decide (('\\' : Char) = '\\') = true from by decide,
    substFuel_escaped_dollar env name.data.length name.data,
    substFuel_no_dollar env _ _ name.data hnd, ← hd, mk_data]

theorem handle_line_subst_example (env : Env) (h : env "A" = some "foo") :
    (handle_line env "B=$A/bar") "B" = some "foo/bar" := by
  have hp : partitionEq "B=$A/bar" = some ("B", "$A/bar") := by decide
  unfold handle_line
  rw [hp]
  show (envSet env "B" (substValue env "$A/bar")) "B" = some "foo/bar"
  unfold envSet
  rw [if_pos rfl]
  have hv : substValue env "$A/bar" = "foo/bar" := by
    unfold substValue
    show String.mk (substFuel env 6 false ('$' :: 'A' :: ['/', 'b', 'a', 'r'])) = _
    rw [substFuel_word_token env 5 'A' ['/', 'b', 'a', 'r'] (by decide)]
    rw [show (['/', 'b', 'a', 'r'].takeWhile isWordChar) = [] from rfl,
      show (['/', 'b', 'a', 'r'].dropWhile isWordChar) = ['/', 'b', 'a', 'r'] from rfl]
    rw [substFuel_no_dollar env 5 false ['/', 'b', 'a', 'r'] (by decide)]
    rw [show envGetD env (String.mk ['A']) = "foo" from by
      unfold envGetD
      rw [show String.mk ['A'] = "A" from rfl, h]
      rfl]
    rfl
  rw [hv]

theorem handle_line_self_reference (env : Env) (p : String) (h : env "PATH" = some p) :
    (handle_line env "PATH=$PATH:/y") "PATH" = some (p ++ ":/y") := by
  have hp : partitionEq "PATH=$PATH:/y" = some ("PATH", "$PATH:/y") := by decide
  unfold handle_line
  rw [hp]
  show (envSet env "PATH" (substValue env "$PATH:/y")) "PATH" = some (p ++ ":/y")
  unfold envSet
  rw [if_pos rfl]
  have hv : substValue env "$PATH:/y" = p ++ ":/y" := by
    unfold substValue
    show String.mk (substFuel env 9 false
      ('$' :: 'P' :: ['A', 'T', 'H', ':', '/', 'y'])) = _
    rw [substFuel_word_token env 8 'P' ['A', 'T', 'H', ':', '/', 'y'] (by decide)]
    rw [show (['A', 'T', 'H', ':', '/', 'y'].takeWhile isWordChar)
        = ['A', 'T', 'H'] from rfl,
      show (['A', 'T', 'H', ':', '/', 'y'].dropWhile isWordChar)
        = [':', '/', 'y'] from rfl]
    rw [substFuel_no_dollar env 8 false [':', '/', 'y'] (by decide)]
    rw [show envGetD env (String.mk ['P', 'A', 'T', 'H']) = p from by
      unfold envGetD
      rw [show String.mk ['P', 'A', 'T', 'H'] = "PATH" from rfl, h]
      rfl]
    show String.mk (p.data ++ ":/y".data) = p ++ ":/y"
    rw [← String.data_append, mk_data]
  rw [hv]

/-- C3: an unescaped `$NAME` or `$\x7bNAME\x7d` token in a value is replaced by
the current value of `NAME` (the empty string when `NAME` is unset, since the
lookup is `env.get(name, '')`), a `$` immediately preceded by a backslash is
never substituted and the backslash is kept, and after `A=foo` the line
`B=$A/bar` sets `B` to `foo/bar`. -/
theorem C3_variable_substitution :
    (∀ (env : Env) (name : String), name ≠ "" →
        (∀ c ∈ name.data, isWordChar c = true) →
        substValue env ("$" ++ name) = envGetD env name)
    ∧ (∀ (env : Env) (name : String), name ≠ "" → '\x7d' ∉ name.data →
        substValue env ("$\x7b" ++ name ++ "\x7d") = envGetD env name)
    ∧ (∀ (env : Env) (name : String), env name = none → envGetD env name = "")
    ∧ (∀ (env : Env) (name : String), (∀ c ∈ name.data, isWordChar c = true) →
        substValue env ("\\$" ++ name) = "\\$" ++ name)
    ∧ (∀ env : Env, env "A" = some "foo" →
        (handle_line env "B=$A/bar") "B" = some "foo/bar") :=
  ⟨substValue_word, substValue_brace,
    fun env name h => by unfold envGetD; rw [h]; rfl,
    substValue_escaped, handle_line_subst_example⟩

/-- Witness for C3 at a concrete environment: with `A` bound to `foo`, the
value `$A` substitutes to `foo`. -/
theorem C3_witness :
    substValue (envSet envEmpty "A" "foo") "$A" = "foo" := by
  have h := C3_variable_substitution.1 (envSet envEmpty "A" "foo") "A"
    (by decide) (by decide)
  rw [show ("$" ++ "A" : String) = "$A" from by decide] at h
  rw [h]
  decide

/-- C4 counterexample: evaluating `C=\$A` stores the backslash: the resulting
value is `\$A`, not the claimed `$A`. -/
theorem C4_counterexample :
    (handle_line envEmpty "C=\\$A") "C" ≠ some "$A" := by decide

/-- C4 amended: evaluating `C=\$A` performs no substitution and stores the
literal string `\$A` — the backslash is retained in the stored value. -/
theorem C4_escaped_assignment :
    (handle_line envEmpty "C=\\$A") "C" = some "\\$A" := by decide

/-- C5: substitution reads the environment as it was before the assignment on
the same line takes effect (for any prior value of `PATH`, the line
`PATH=$PATH:/y` appends `:/y` to it), and the two-file scenario
`PATH=/x` then `PATH=$PATH:/y` yields `/x:/y`. -/
theorem C5_self_reference :
    (∀ (env : Env) (p : String), env "PATH" = some p →
        (handle_line env "PATH=$PATH:/y") "PATH" = some (p ++ ":/y"))
    ∧ current_env [[⟨"1.conf", ["PATH=/x"]⟩, ⟨"2.conf", ["PATH=$PATH:/y"]⟩]] "PATH"
      = some "/x:/y" :=
  ⟨handle_line_self_reference, by decide⟩

/-- Witness for C5 at a concrete environment with `PATH=/x`. -/
theorem C5_witness :
    (handle_line (envSet envEmpty "PATH" "/x") "PATH=$PATH:/y") "PATH"
      = some "/x:/y" := by
  have h := C5_self_reference.1 (envSet envEmpty "PATH" "/x") "/x" (by decide)
  rw [h]
  decide

/-! ## Dict merge lemmas -/

theorem find?_overwrite (k : String) (v : ConfFile) :
    ∀ d : List (String × ConfFile), d.any (fun kv => decide (kv.1 = k)) = true →
      (d.map (fun kv => if kv.1 = k then (k, v) else kv)).find?
        (fun kv => decide (kv.1 = k)) = some (k, v) := by
  intro d
  induction d with
  | nil => intro h; simp at h
  | cons a rest ih =>
    intro h
    by_cases ha : a.1 = k
    · simp only [List.map_cons, if_pos ha]
      exact List.find?_cons_of_pos _ (by simp)
    · simp only [List.map_cons, if_neg ha]
      rw [List.find?_cons_of_neg _ (by simpa using ha)]
      apply ih
      rcases List.any_eq_true.1 h with ⟨x, hx, hpx⟩
      rcases List.mem_cons.1 hx with heq | hx2
      · exact absurd (of_decide_eq_true hpx) (heq ▸ ha)
      · exact List.any_eq_true.2 ⟨x, hx2, hpx⟩

theorem find?_map_keep (k k2 : String) (v : ConfFile) (hk : k2 ≠ k) :
    ∀ d : List (String × ConfFile),
      (d.map (fun kv => if kv.1 = k2 then (k2, v) else kv)).find?
        (fun kv => decide (kv.1 = k)) = d.find? (fun kv => decide (kv.1 = k)) := by
  intro d
  induction d with
  | nil => rfl
  | cons a rest ih =>
    by_cases ha : a.1 = k2
    · simp only [List.map_cons, if_pos ha]
      rw [List.find?_cons_of_neg _ (by simpa using hk),
        List.find?_cons_of_neg _ (by simp [ha, hk])]
      exact ih
    · simp only [List.map_cons, if_neg ha]
      by_cases hak : a.1 = k
      · rw [List.find?_cons_of_pos _ (by simpa using hak),
          List.find?_cons_of_pos _ (by simpa using hak)]
      · rw [List.find?_cons_of_neg _ (by simpa using hak),
          List.find?_cons_of_neg _ (by simpa using hak)]
        exact ih

theorem dictLookup_insert_self (d : List (String × ConfFile)) (k : String)
    (v : ConfFile) : dictLookup (insertDict d k v) k = some v := by
  unfold insertDict dictLookup
  by_cases h : d.any (fun kv => decide (kv.1 = k)) = true
  · rw [if_pos h, find?_overwrite k v d h]
    rfl
  · rw [if_neg h, List.find?_append]
    rw [List.find?_eq_none.2 fun x hx hpx => h (List.any_eq_true.2 ⟨x, hx, hpx⟩)]
    simp

theorem dictLookup_insert_ne (d : List (String × ConfFile)) (k k2 : String)
    (v : ConfFile) (hk : k2 ≠ k) :
    dictLookup (insertDict d k2 v) k = dictLookup d k := by
  unfold insertDict dictLookup
  by_cases h : d.any (fun kv => decide (kv.1 = k2)) = true
  · rw [if_pos h, find?_map_keep k k2 v hk d]
  · rw [if_neg h, List.find?_append]
    rw [show ([(k2, v)].find? (fun kv => decide (kv.1 = k))) = none from by
      simp [hk]]
    rw [Option.or_none]

theorem dictLookup_foldl (k : String) :
    ∀ (files : List ConfFile) (d : List (String × ConfFile)),
      dictLookup (files.foldl (fun d f => insertDict d f.name f) d) k
        = match findLast (fun f => decide (f.name = k)) files with
          | some f => some f
          | none => dictLookup d k := by
  intro files
  induction files with
  | nil => intro d; rfl
  | cons f fs ih =>
    intro d
    rw [List.foldl_cons, ih (insertDict d f.name f)]
    cases hfs : findLast (fun f => decide (f.name = k)) fs with
    | some x => simp only [findLast, hfs]
    | none =>
      simp only [findLast, hfs]
      by_cases hf : f.name = k
      · rw [if_pos (by simpa using hf)]
        subst hf
        exact dictLookup_insert_self d f.name f
      · rw [if_neg (by simpa using hf), dictLookup_insert_ne d k f.name f hf]

theorem buildDict_findLast (files : List ConfFile) (k : String) :
    dictLookup (buildDict files) k = findLast (fun f => decide (f.name = k)) files := by
  unfold buildDict
  rw [dictLookup_foldl k files []]
  cases h : findLast (fun f => decide (f.name = k)) files with
  | some f => rfl
  | none => rfl

/-- C6: file discovery is last-write-wins on the basename: the dict built by
folding the (priority-ordered) directory listing maps every basename to the
last file carrying it, so only the file from the highest-priority directory is
evaluated; with `x.conf` defining `K=1` in the low-priority directory and `K=2`
in the high-priority one, the merged environment maps `K` to `2`. -/
theorem C6_last_directory_wins :
    (∀ (files : List ConfFile) (k : String),
        dictLookup (buildDict files) k
          = findLast (fun f => decide (f.name = k)) files)
    ∧ current_env [[⟨"x.conf", ["K=1"]⟩], [⟨"x.conf", ["K=2"]⟩]] "K" = some "2" :=
  ⟨buildDict_findLast, by decide⟩

/-! ## Logical-line lemmas -/

theorem fileLoop_eq_foldl :
    ∀ (lines : List String) (env : Env) (full : String),
      fileLoop env full lines = (logicalLines full lines).foldl handle_line env := by
  intro lines
  induction lines with
  | nil => intro env full; rfl
  | cons l ls ih =>
    intro env full
    unfold fileLoop logicalLines
    by_cases h1 : startsHash l = true
    · rw [if_pos h1, if_pos h1]
      exact ih env full
    · rw [if_neg h1, if_neg h1]
      by_cases h2 : endsBackslash (rstrip l) = true
      · rw [if_pos h2, if_pos h2]
        exact ih env _
      · rw [if_neg h2, if_neg h2, List.foldl_cons]
        exact ih _ ""

/-- C7: backslash continuations are joined (the backslash stripped and the next
physical line concatenated, repeatably) before the combined logical line is
evaluated — `update_env_from_file` is the fold of `handle_line` over the
logical lines; `K=a\` then `b` yields `K=ab`; and a file ending mid-continuation
still flushes the accumulated text as a final logical line. -/
theorem C7_line_continuation :
    (∀ (env : Env) (lines : List String),
        update_env_from_file env lines = (logicalLinesOf lines).foldl handle_line env)
    ∧ logicalLinesOf ["K=a\\", "b"] = ["K=ab", ""]
    ∧ (update_env_from_file envEmpty ["K=a\\", "b"]) "K" = some "ab"
    ∧ (update_env_from_file envEmpty ["K=a\\", "b\\", "c"]) "K" = some "abc"
    ∧ (update_env_from_file envEmpty ["K=a\\"]) "K" = some "a" :=
  ⟨fun env lines => fileLoop_eq_foldl lines env "", by decide, by decide, by decide,
    by decide⟩

theorem dropWhile_idem (p : Char → Bool) :
    ∀ l : List Char, (l.dropWhile p).dropWhile p = l.dropWhile p := by
  intro l
  induction l with
  | nil => rfl
  | cons c cs ih =>
    by_cases h : p c = true
    · rw [List.dropWhile_cons_of_pos h]
      exact ih
    · rw [List.dropWhile_cons_of_neg (by simpa using h),
        List.dropWhile_cons_of_neg (by simpa using h)]

theorem rstrip_idem (s : String) : rstrip (rstrip s) = rstrip s := by
  show String.mk ((((s.data.reverse.dropWhile isPySpace).reverse).reverse.dropWhile
    isPySpace).reverse) = _
  rw [List.reverse_reverse, dropWhile_idem]
  rfl

theorem logicalLines_rstripped :
    ∀ (lines : List String) (full l : String),
      l ∈ logicalLines full lines → rstrip l = l := by
  intro lines
  induction lines with
  | nil =>
    intro full l hl
    simp only [logicalLines, List.mem_singleton] at hl
    subst hl
    exact rstrip_idem full
  | cons x ls ih =>
    intro full l hl
    unfold logicalLines at hl
    by_cases h1 : startsHash x = true
    · rw [if_pos h1] at hl
      exact ih full l hl
    · rw [if_neg h1] at hl
      by_cases h2 : endsBackslash (rstrip x) = true
      · rw [if_pos h2] at hl
        exact ih _ l hl
      · rw [if_neg h2] at hl
        rcases List.mem_cons.1 hl with heq | hl2
        · exact heq ▸ rstrip_idem _
        · exact ih "" l hl2

/-- C8 counterexample: with the single line `" K=v"`, the leading whitespace
does NOT become part of the assigned value: no variable `K` is assigned at
all — the whitespace lands in the variable name `" K"`. -/
theorem C8_counterexample :
    (update_env_from_file envEmpty [" K=v"]) "K" = none
    ∧ (update_env_from_file envEmpty [" K=v"]) " K" = some "v" :=
  ⟨by decide, by decide⟩

/-- C8 amended: every logical line is evaluated with trailing whitespace
stripped; leading whitespace on the line is preserved but becomes part of the
variable name (the text before the first `=`), while whitespace after the `=`
becomes part of the value. -/
theorem C8_whitespace :
    (∀ (lines : List String) (l : String), l ∈ logicalLinesOf lines → rstrip l = l)
    ∧ (update_env_from_file envEmpty ["  K=v  "]) "  K" = some "v"
    ∧ (update_env_from_file envEmpty ["  K=v  "]) "K" = none
    ∧ (update_env_from_file envEmpty ["K=  v"]) "K" = some "  v" :=
  ⟨fun lines l h => logicalLines_rstripped lines "" l h, by decide, by decide,
    by decide⟩

/-- Witness for C8 at a concrete file: the logical line `x=1` of the file
`["x=1"]` is already stripped. -/
theorem C8_witness : rstrip "x=1" = "x=1" :=
  C8_whitespace.1 ["x=1"] "x=1" (by decide)

/-- C9: the orchestrator writes nothing when the merged environment has no
`PATH` or an empty one, writes nothing when the rearranged string equals the
original, and otherwise writes exactly `PATH=<new value>\n` to
`90-rearrange-path.conf` in the last directory of the list. -/
theorem C9_orchestrator (dirs : List (List ConfFile)) :
    ((current_env dirs) "PATH" = none → rearrange_path dirs = none)
    ∧ ((current_env dirs) "PATH" = some "" → rearrange_path dirs = none)
    ∧ (∀ p, (current_env dirs) "PATH" = some p → rearrange_bin_sbin p = p →
        rearrange_path dirs = none)
    ∧ (∀ p, (current_env dirs) "PATH" = some p → p ≠ "" →
        rearrange_bin_sbin p ≠ p →
        rearrange_path dirs
          = some ⟨dirs.length - 1, "90-rearrange-path.conf",
              "PATH=" ++ rearrange_bin_sbin p ++ "\n"⟩) := by
  refine ⟨?_, ?_, ?_, ?_⟩
  · intro h
    simp [rearrange_path, h]
  · intro h
    simp [rearrange_path, h]
  · intro p hp hr
    by_cases he : p = ""
    · simp [rearrange_path, hp, he]
    · simp [rearrange_path, hp, he, hr]
  · intro p hp he hr
    simp [rearrange_path, hp, he, hr]

/-- Witness for C9: a single directory whose merged environment has
`PATH=/usr/sbin:/usr/bin` gets the override file written into it. -/
theorem C9_witness :
    rearrange_path [[⟨"a.conf", ["PATH=/usr/sbin:/usr/bin"]⟩]]
      = some ⟨0, "90-rearrange-path.conf", "PATH=/usr/bin:/usr/sbin\n"⟩ := by
  have h := (C9_orchestrator [[⟨"a.conf", ["PATH=/usr/sbin:/usr/bin"]⟩]]).2.2.2
    "/usr/sbin:/usr/bin" (by decide) (by decide) (by decide)
  rw [h]
  decide

end RearrangePath
